import Mathlib

/-!
A verification development for the compilation driver in
`src/compiler/compiler.c`: the staged semantic-analysis pipeline, the
public-symbol registry, module creation, arena initialization, source-name
expansion, the standard-library source list, and the scratch buffer.

Each C function is shallowly embedded as an executable Lean definition that
mirrors the source line by line.  Process exit (`error_exit`, `exit`) is
modelled by `Option`/`Except` failure or by a `halted` flag; machine integers
are modelled by `Nat` (no arithmetic here approaches any wrap-around
boundary); C strings are modelled by `List Char`.
-/

/-! ## Scratch buffer (compiler.c lines 461-493)

The scratch buffer is a fixed array `scratch_buffer[MAX_STRING_BUFFER]`
together with a length `scratch_buffer_len`.  We model the array by a total
function `Nat → Char` and the length by a `Nat`; the constant
`MAX_STRING_BUFFER` (defined in `compiler_internal.h`, outside the excerpt)
is a parameter `MAX`.  `error_exit` is modelled by returning `none`. -/

structure Scratch where
  data : Nat → Char
  len : Nat

/-- Write the characters of `s` into the buffer `f` starting at position
`pos` (the model of `memcpy` into the scratch array). -/
def writeChars (f : Nat → Char) (pos : Nat) : List Char → (Nat → Char)
  | [] => f
  | c :: rest => writeChars (fun j => if j = pos then c else f j) (pos + 1) rest

/-- `scratch_buffer_clear`: reset the length; the array contents are not
touched. -/
def scratch_buffer_clear (st : Scratch) : Scratch :=
  ⟨st.data, 0⟩

/-- `scratch_buffer_append_len(string, len)`: exit (`none`) when
`len + scratch_buffer_len > MAX_STRING_BUFFER - 1`, otherwise `memcpy` the
payload after the current contents and extend the length. -/
def scratch_buffer_append_len (MAX : Nat) (st : Scratch) (s : List Char) : Option Scratch :=
  if MAX - 1 < s.length + st.len then none
  else some ⟨writeChars st.data st.len s, st.len + s.length⟩

/-- `scratch_buffer_append(string)`: `scratch_buffer_append_len` at the full
string (C calls it with `strlen(string)`). -/
def scratch_buffer_append (MAX : Nat) (st : Scratch) (s : List Char) : Option Scratch :=
  scratch_buffer_append_len MAX st s

/-- `scratch_buffer_append_char(c)`: exit when
`scratch_buffer_len + 1 > MAX_STRING_BUFFER - 1`, otherwise store the
character and bump the length. -/
def scratch_buffer_append_char (MAX : Nat) (st : Scratch) (c : Char) : Option Scratch :=
  if MAX - 1 < st.len + 1 then none
  else some ⟨fun j => if j = st.len then c else st.data j, st.len + 1⟩

/-- `scratch_buffer_to_string`: null-terminate at index `scratch_buffer_len`
and return the buffer; the returned C string is the buffer contents up to the
written terminator. -/
def scratch_buffer_to_string (st : Scratch) : List Char :=
  (List.range st.len).map st.data

/-- The four scratch-buffer operations, for stating properties of arbitrary
operation sequences. -/
inductive ScratchOp where
  | clear
  | append_len (s : List Char)
  | append (s : List Char)
  | append_char (c : Char)

/-- One scratch-buffer operation; `none` models the process exiting. -/
def scratch_step (MAX : Nat) (st : Scratch) : ScratchOp → Option Scratch
  | ScratchOp.clear => some (scratch_buffer_clear st)
  | ScratchOp.append_len s => scratch_buffer_append_len MAX st s
  | ScratchOp.append s => scratch_buffer_append MAX st s
  | ScratchOp.append_char c => scratch_buffer_append_char MAX st c

/-! ## Symbol tables and the public-symbol registry (compiler.c lines 444-459)

`STable` is keyed by interned strings (pointer identity); we model a table as
a function `String → Option β` and `stable_set`/`stable_get` as function
update/application.  The poison sentinel `poisoned_decl` is a distinguished
value, modelled by a dedicated constructor. -/

/-- `stable_set`: map update (the C table stores the value under the key,
replacing any previous value). -/
def stable_set (m : String → Option β) (k : String) (v : β) : String → Option β :=
  fun x => if x = k then some v else m x

/-- The parts of a `Decl` that `compiler_register_public_symbol` reads:
`decl->name` and `decl->module->name->module`. -/
structure Decl where
  name : String
  module : String
deriving DecidableEq

/-- A value stored in `global_symbols` / a qualified sub-map: either the
poison sentinel `poisoned_decl` or a declaration. -/
inductive SymEntry where
  | poisoned
  | decl (d : Decl)
deriving DecidableEq

/-- The two symbol tables `compiler_register_public_symbol` writes. -/
structure SymRegistry where
  global_symbols : String → Option SymEntry
  qualified_symbols : String → Option (String → Option SymEntry)

/-- The registry at program start: both tables empty. -/
def emptyRegistry : SymRegistry :=
  ⟨fun _ => none, fun _ => none⟩

/-- `compiler_register_public_symbol(decl)`: insert into
`global_symbols[decl->name]`, poisoning when a previous entry exists; look up
the per-module sub-map in `qualified_symbols`, creating it (empty) when
missing; insert into the sub-map under the name with the same poison rule. -/
def compiler_register_public_symbol (reg : SymRegistry) (d : Decl) : SymRegistry :=
  let prev := reg.global_symbols d.name
  let g := stable_set reg.global_symbols d.name
    (match prev with
     | some _ => SymEntry.poisoned
     | none => SymEntry.decl d)
  let sub : String → Option SymEntry :=
    match reg.qualified_symbols d.module with
    | some s => s
    | none => fun _ => none
  let prev2 := sub d.name
  let sub2 := stable_set sub d.name
    (match prev2 with
     | some _ => SymEntry.poisoned
     | none => SymEntry.decl d)
  ⟨g, stable_set reg.qualified_symbols d.module sub2⟩

/-- A whole sequence of registrations, in order, from the empty registry. -/
def register_all (ds : List Decl) : SymRegistry :=
  ds.foldl compiler_register_public_symbol emptyRegistry

/-- The value `global_symbols[n]` should hold after registering `ds`:
nothing when no registration used the name, the declaration when exactly one
did, the poison sentinel when two or more did. -/
def globalResult (ds : List Decl) (n : String) : Option SymEntry :=
  match ds.filter (fun d => d.name = n) with
  | [] => none
  | [d] => some (SymEntry.decl d)
  | _ => some SymEntry.poisoned

/-! ## Module creation (compiler.c lines 414-442)

A `Module*` is identified by its allocation order (`CALLOCS` pointer
identity); `global_context.modules` maps interned names to modules, and
`vec_add` appends to `module_list` / `generic_module_list`.  The
`parameters` argument is a nullable pointer, modelled by `Option Nat`. -/

/-- The fields of `Module` that `compiler_find_or_create_module` writes. -/
structure ModuleRec where
  name : String
  stage : Nat
  parameters : Option Nat
deriving DecidableEq

/-- The module-related global state: the `modules` table (name to module
id), the backing store (id = index, modelling pointer identity), and the two
module lists. -/
structure ModuleCtx where
  modules : String → Option Nat
  store : List ModuleRec
  module_list : List Nat
  generic_module_list : List Nat

/-- The module state at program start. -/
def emptyModuleCtx : ModuleCtx :=
  ⟨fun _ => none, [], [], []⟩

/-- `compiler_find_or_create_module(module_name, parameters)`: return the
existing module of that name, or allocate one at `ANALYSIS_NOT_BEGUN` (= 0),
record it in `modules`, and append it to `generic_module_list` when
`parameters` is non-null, otherwise to `module_list`. -/
def compiler_find_or_create_module (ctx : ModuleCtx) (name : String)
    (parameters : Option Nat) : Nat × ModuleCtx :=
  match ctx.modules name with
  | some id => (id, ctx)
  | none =>
    let id := ctx.store.length
    let m : ModuleRec := ⟨name, 0, parameters⟩
    (id,
     { modules := stable_set ctx.modules name id
       store := ctx.store ++ [m]
       module_list :=
         match parameters with
         | some _ => ctx.module_list
         | none => ctx.module_list ++ [id]
       generic_module_list :=
         match parameters with
         | some _ => ctx.generic_module_list ++ [id]
         | none => ctx.generic_module_list })

/-! ## Arena initialization (compiler.c lines 33-62)

`compiler_init` calls `vmem_init` on the seven arenas and then performs one
`*_calloc` on the source-location, token-type and token-data arenas ("Create
zero index value"). -/

/-- The seven arenas of compiler.c. -/
inductive ArenaId where
  | ast
  | expr
  | decl
  | sourceloc
  | toktype
  | tokdata
  | typeInfo
deriving DecidableEq

/-- Allocation counters of the arenas (`Vmem.allocated`, counted in
elements for the indexed arenas). -/
structure Arenas where
  allocated : ArenaId → Nat

/-- Modelled from the spec: the `*_calloc` helpers (defined outside the
excerpt) allocate one indexed element from the named arena; per spec §4.1
`alloc_indexed()` returns a dense index, so the returned index is the number
of elements allocated so far. -/
def arena_calloc (a : ArenaId) (st : Arenas) : Nat × Arenas :=
  (st.allocated a, ⟨fun x => if x = a then st.allocated a + 1 else st.allocated x⟩)

/-- The arena part of `compiler_init`: `vmem_init` zeroes every counter,
then one `calloc` each on the source-location, token-type and token-data
arenas creates their zero index values. -/
def compiler_init_arenas : Arenas :=
  let s0 : Arenas := ⟨fun _ => 0⟩
  let s1 := (arena_calloc ArenaId.sourceloc s0).2
  let s2 := (arena_calloc ArenaId.toktype s1).2
  (arena_calloc ArenaId.tokdata s2).2

/-- A sequence of user allocations after `compiler_init`, returning every
(arena, index) pair handed out. -/
def arena_run : List ArenaId → Arenas → List (ArenaId × Nat) × Arenas
  | [], st => ([], st)
  | a :: rest, st =>
    let p := arena_calloc a st
    let q := arena_run rest p.2
    ((a, p.1) :: q.1, q.2)

/-! ## Standard-library sources (compiler.c lines 192-200) -/

/-- Modelled from the spec: the source's `vec_add(vec, element)` vector
primitive (defined outside the excerpt) adds one element to a growable
vector; the element is placed after the existing ones, which is what makes
the spec's positional-correspondence guarantees (§5) and the in-order
iteration of `VECEACH` over previously added elements hold. -/
def vec_add (v : List α) (x : α) : List α :=
  v ++ [x]

/-- The `if (global_context.lib_dir) { vec_add(sources, strformat(...)); x6 }`
step of `compiler_compile`: when a library directory is configured, add the
six standard-library sources to `sources`.  `strformat("%s/std/runtime.c3",
lib_dir)` is string concatenation. -/
def compiler_add_lib_sources (lib_dir : Option (List Char)) (sources : List (List Char)) :
    List (List Char) :=
  match lib_dir with
  | none => sources
  | some l =>
    vec_add (vec_add (vec_add (vec_add (vec_add (vec_add sources
      (l ++ ("/std/runtime.c3").toList))
      (l ++ ("/std/builtin.c3").toList))
      (l ++ ("/std/io.c3").toList))
      (l ++ ("/std/mem.c3").toList))
      (l ++ ("/std/array.c3").toList))
      (l ++ ("/std/math.c3").toList)

/-- The six standard-library paths for a given library directory, in the
order the code adds them. -/
def std_lib_sources (l : List Char) : List (List Char) :=
  [l ++ ("/std/runtime.c3").toList,
   l ++ ("/std/builtin.c3").toList,
   l ++ ("/std/io.c3").toList,
   l ++ ("/std/mem.c3").toList,
   l ++ ("/std/array.c3").toList,
   l ++ ("/std/math.c3").toList]

/-! ## Source-name expansion (compiler.c lines 329-366) -/

/-- The classification `target_expand_source_names` gives one source entry:
a fatal `error_exit` (invalid name), a call
`file_add_wildcard_files(&files, path, recursive)`, or the literal file
name. -/
inductive ExpandResult where
  | invalid
  | wildcard (recursive : Bool) (path : List Char)
  | file (name : List Char)
deriving DecidableEq

/-- The per-entry body of `target_expand_source_names`: mirror of the C,
reading `name[name_len - 1]`, `name[name_len - 2]`, `name[name_len - 3]`
(all reads are in bounds in C whenever they are reached; out-of-range `getD`
defaults never hit a compared character).  Truncation `path[name_len - 1] =
0` / `path[name_len - 2] = 0` is `List.take`; the final
`strcmp(&name[name_len - 3], ".c3")` compares the three-character suffix. -/
def expand_source_name (name : List Char) : ExpandResult :=
  let n := name.length
  if n < 1 then ExpandResult.invalid
  else if name.getD (n - 1) ' ' = '*' then
    if n = 1 ∨ name.getD (n - 2) ' ' = '/' then
      ExpandResult.wildcard false (name.take (n - 1))
    else if ¬ (name.getD (n - 2) ' ' = '*') then ExpandResult.invalid
    else if n = 2 ∨ name.getD (n - 3) ' ' = '/' then
      ExpandResult.wildcard true (name.take (n - 2))
    else ExpandResult.invalid
  else if n < 4 then ExpandResult.invalid
  else if name.drop (n - 3) = ('.' :: 'c' :: '3' :: []) then ExpandResult.file name
  else ExpandResult.invalid

/-- `s` ends with the suffix `suf`. -/
def endsWith (suf s : List Char) : Prop :=
  ∃ t, s = t ++ suf

/-- `target_expand_source_names`, over the whole source vector:
`none` models `error_exit` on an invalid name; `fs path recursive` is the
file-system oracle for `file_add_wildcard_files` (modelled from the spec:
it appends the `.c3` files found under `path`). -/
def target_expand_source_names (fs : List Char → Bool → List (List Char)) :
    List (List Char) → Option (List (List Char))
  | [] => some []
  | name :: rest =>
    match expand_source_name name with
    | ExpandResult.invalid => none
    | ExpandResult.wildcard r p =>
      (target_expand_source_names fs rest).map (fun fsRest => fs p r ++ fsRest)
    | ExpandResult.file m =>
      (target_expand_source_names fs rest).map (fun fsRest => m :: fsRest)

/-! ## The driver entry `compile()` and the front of `compiler_compile()`
(compiler.c lines 186-220 and 380-399)

`source_file_load`'s was-already-loaded signal is an oracle predicate
`cached`; a translation context is created for exactly the sources that are
not cached.  The value `analysisRes` stands for whatever running the
analysis stages (and the backend) would produce: an `Except.error` result
means the process exited before any analysis stage ran. -/

/-- The front of `compiler_compile`: add the standard-library sources, load
and parse each source that was not already loaded into a context, and
`error_exit("No source files to compile.")` when no context was produced. -/
def compiler_compile_front (lib_dir : Option (List Char)) (cached : List Char → Bool)
    (sources : List (List Char)) (analysisRes : α) : Except String α :=
  let sources2 := compiler_add_lib_sources lib_dir sources
  let contexts := sources2.filter (fun s => ¬ cached s)
  if contexts.length = 0 then Except.error "No source files to compile."
  else Except.ok analysisRes

/-- `compile()`: expand the source names, `error_exit("No files to
compile.")` when the expanded list is empty, then run `compiler_compile`
(lex-only and parse-only modes are out of scope of the claims). -/
def compile_model (fs : List Char → Bool → List (List Char))
    (cached : List Char → Bool) (lib_dir : Option (List Char))
    (sources : List (List Char)) (analysisRes : α) : Except String α :=
  match target_expand_source_names fs sources with
  | none => Except.error "File names must end with .c3 or they cannot be compiled."
  | some expanded =>
    if expanded.length = 0 then Except.error "No files to compile."
    else compiler_compile_front lib_dir cached expanded analysisRes

/-! ## The staged analysis pipeline (compiler.c lines 101-152 and 222-225)

The pipeline state is the stage of every module in `module_list` (module =
position in the list; `count` is `vec_size(module_list)`), the diagnostic
counter `errors_found`, and a `halted` flag modelling `exit(EXIT_FAILURE)` /
truncation.  Stages are `ANALYSIS_NOT_BEGUN = 0` up to `ANALYSIS_LAST =
ANALYSIS_FUNCTIONS = 6`.

The bodies of the six `sema_analysis_pass_*` functions are outside the
excerpt.  Modelled from the spec: a pass may record diagnostics (increment
`errors_found`), and only the `IMPORTS` pass (stage 1) may create modules,
which `compiler_find_or_create_module` appends to `module_list` at stage
`ANALYSIS_NOT_BEGUN`.  Each pass's behaviour is drawn from an arbitrary
oracle indexed by a global step counter, so every possible sequence of pass
effects is covered. -/

/-- What one analysis pass may do to the global state: append some number of
fresh modules to `module_list` (only effective for the `IMPORTS` pass) and
add to `errors_found`. -/
structure PassEffect where
  appendCount : Nat
  errorsAdded : Nat

/-- A log entry: module `moduleIdx` began its stage-`stage` pass while the
modules in `module_list` had stages `stagesAtBegin` and `errors_found` was
`errorsAtBegin`. -/
structure PassEvent where
  moduleIdx : Nat
  stage : Nat
  stagesAtBegin : List Nat
  errorsAtBegin : Nat
deriving DecidableEq

/-- The pipeline state: `count` modules with stages `stageOf`, the
`errors_found` counter, a step counter feeding the oracle, the event log,
and the `halted` flag (the process has exited). -/
structure PState where
  count : Nat
  stageOf : Nat → Nat
  errors : Nat
  time : Nat
  log : List PassEvent
  halted : Bool

/-- The stages of the modules currently in `module_list`, in list order. -/
def snapshotStages (st : PState) : List Nat :=
  (List.range st.count).map st.stageOf

/-- Point update of the stage function. -/
def setStage (f : Nat → Nat) (i v : Nat) : Nat → Nat :=
  fun j => if j = i then v else f j

/-- Run the pass for the stage module `i` has just been advanced to: log the
event, apply the oracle's effect (modules are appended only by an `IMPORTS`
(stage 1) pass, at stage `ANALYSIS_NOT_BEGUN`; the appended modules are not
in the list when the pass begins). -/
def runPass (oracle : Nat → PassEffect) (i : Nat) (st : PState) : PState :=
  let s := st.stageOf i
  let eff := oracle st.time
  let extra := if s = 1 then eff.appendCount else 0
  { count := st.count + extra
    stageOf := st.stageOf
    errors := st.errors + eff.errorsAdded
    time := st.time + 1
    log := st.log ++ [⟨i, s, snapshotStages st, st.errors⟩]
    halted := st.halted }

/-- `sema_analyze_stage(module, stage)`: while `module->stage < stage`,
advance the stage, run that stage's pass, and return as soon as
`errors_found` is nonzero.  The fuel argument only bounds the loop; at the
call site it is the target stage, which the loop can never exceed because
each iteration raises `module->stage` by one. -/
def sema_analyze_stage (oracle : Nat → PassEffect) (i S : Nat) :
    Nat → PState → PState
  | 0, st => st
  | fuel + 1, st =>
    if st.stageOf i < S then
      let st1 : PState := { st with stageOf := setStage st.stageOf i (st.stageOf i + 1) }
      let st2 := runPass oracle i st1
      if 0 < st2.errors then st2
      else sema_analyze_stage oracle i S fuel st2
    else st

/-- `halt_on_error()`: `exit(EXIT_FAILURE)` when `errors_found > 0`. -/
def halt_on_error (st : PState) : PState :=
  if 0 < st.errors then { st with halted := true } else st

/-- The module loop of `analyze_to_stage`:
`for (i = 0; i < vec_size(module_list); i++) sema_analyze_stage(m[i], stage)`.
The bound is re-read every iteration, so modules appended mid-loop are also
processed.  Exhausting the fuel models looking at a finite prefix of the run
and stops it (`halted`). -/
def analyze_to_stage_loop (oracle : Nat → PassEffect) (S : Nat) :
    Nat → Nat → PState → PState
  | 0, _, st => { st with halted := true }
  | fuel + 1, i, st =>
    if i < st.count then
      analyze_to_stage_loop oracle S fuel (i + 1) (sema_analyze_stage oracle i S S st)
    else st

/-- `analyze_to_stage(stage)`: the module loop followed by
`halt_on_error()`. -/
def analyze_to_stage (oracle : Nat → PassEffect) (S fuel : Nat) (st : PState) : PState :=
  halt_on_error (analyze_to_stage_loop oracle S fuel 0 st)

/-- `ANALYSIS_LAST`: the sixth and last stage, `ANALYSIS_FUNCTIONS`. -/
def analysisLast : Nat := 6

/-- The stage loop of `compiler_compile`:
`for (stage = ANALYSIS_NOT_BEGUN + 1; stage <= ANALYSIS_LAST; stage++)
analyze_to_stage(stage)`, running stages `S, S+1, ..., S+n-1`; a halted
(exited) state stops. -/
def run_stages_from (oracle : Nat → PassEffect) (fuel : Nat) :
    Nat → Nat → PState → PState
  | _, 0, st => st
  | S, n + 1, st =>
    if st.halted then st
    else run_stages_from oracle fuel (S + 1) n (analyze_to_stage oracle S fuel st)

/-- The pipeline state when `compiler_compile` reaches the stage loop:
`n` modules (grouped from the parsed contexts), all at
`ANALYSIS_NOT_BEGUN`, no errors (cleared on entry), empty log. -/
def initPState (n : Nat) : PState :=
  ⟨n, fun _ => 0, 0, 0, [], false⟩

/-- The whole analysis portion of one `compiler_compile` run: the six-stage
loop from `n` freshly created modules, with pass behaviour `oracle`,
examined up to `fuel` modules per stage. -/
def pipeline_run (oracle : Nat → PassEffect) (n fuel : Nat) : PState :=
  run_stages_from oracle fuel 1 analysisLast (initPState n)

/-- Modules not (yet) in `module_list` have no stage: the stage function
reads 0 beyond `count`. -/
def WFP (st : PState) : Prop :=
  ∀ j, st.count ≤ j → st.stageOf j = 0

/-- During `analyze_to_stage(S)` every module in the list is either already
at stage `S` or still at stage `S - 1`. -/
def WithinStage (S : Nat) (st : PState) : Prop :=
  ∀ j, j < st.count → st.stageOf j = S ∨ st.stageOf j = S - 1

/-- The lockstep property of one logged pass: every module that was in
`module_list` when this pass began was at stage at least `stage - 1`. -/
def GoodEvent (e : PassEvent) : Prop :=
  ∀ x ∈ e.stagesAtBegin, e.stage - 1 ≤ x

/-- The passes that began while `errors_found` was already nonzero. -/
def errEvents (log : List PassEvent) : List PassEvent :=
  log.filter (fun e => 0 < e.errorsAtBegin)

/-- The default event used with `List.getD` when stating positional
properties of the log. -/
def defaultEvent : PassEvent := ⟨0, 0, [], 0⟩

/-- The recorded `errors_found` values are non-decreasing along the log:
the counter is cleared once before the stage loop and only ever
incremented. -/
def MonoErrors (log : List PassEvent) : Prop :=
  List.Pairwise (fun a b => a.errorsAtBegin ≤ b.errorsAtBegin) log

/-- The shape of a run after its first error.  Position `p` is the erroring
pass when it began with `errors_found = 0` and the next pass began with
`errors_found > 0`.  Every pass after it is on a strictly greater module
index (so the erroring module runs no further pass and every module runs at
most one), is at the same stage (no module enters the next stage), and
began with `errors_found` still positive. -/
def ErrStruct (log : List PassEvent) : Prop :=
  ∀ p q, p < q → q < log.length →
    (log.getD p defaultEvent).errorsAtBegin = 0 →
    0 < (log.getD (p + 1) defaultEvent).errorsAtBegin →
    (log.getD p defaultEvent).moduleIdx < (log.getD q defaultEvent).moduleIdx
    ∧ (log.getD q defaultEvent).stage = (log.getD p defaultEvent).stage
    ∧ 0 < (log.getD q defaultEvent).errorsAtBegin

/-- Loop bookkeeping for `ErrStruct`: while `analyze_to_stage(S)` is at
module index `i` with `errors` recorded errors, the last pass that began
with `errors_found = 0` and was followed only by error-pending passes (the
erroring pass, if errors have occurred) ran at stage `S` on a module index
below `i`. -/
def ErrAnchor (S i errors : Nat) (log : List PassEvent) : Prop :=
  ∀ p, p < log.length →
    (log.getD p defaultEvent).errorsAtBegin = 0 →
    (∀ q, p < q → q < log.length → 0 < (log.getD q defaultEvent).errorsAtBegin) →
    0 < errors →
    (log.getD p defaultEvent).stage = S ∧ (log.getD p defaultEvent).moduleIdx < i

/-! # Theorems -/

/-! ## Scratch-buffer lemmas -/

theorem writeChars_eq_of_lt (s : List Char) :
    ∀ (f : Nat → Char) (pos j : Nat), j < pos → writeChars f pos s j = f j := by
  induction s with
  | nil => intro f pos j _; rfl
  | cons c rest ih =>
    intro f pos j h
    simp only [writeChars]
    rw [ih _ (pos + 1) j (Nat.lt_succ_of_lt h)]
    simp [Nat.ne_of_lt h]

theorem range_map_writeChars (s : List Char) :
    ∀ (f : Nat → Char) (pos : Nat),
      (List.range (pos + s.length)).map (writeChars f pos s) = (List.range pos).map f ++ s := by
  induction s with
  | nil => intro f pos; simp [writeChars]
  | cons c rest ih =>
    intro f pos
    have h1 : pos + (c :: rest).length = (pos + 1) + rest.length := by
      simp [List.length_cons]
      omega
    rw [h1]
    simp only [writeChars]
    rw [ih _ (pos + 1), List.range_succ]
    have h2 : (List.range pos).map (fun j => if j = pos then c else f j) =
        (List.range pos).map f := by
      apply List.map_congr_left
      intro a ha
      have : a < pos := List.mem_range.mp ha
      simp [Nat.ne_of_lt this]
    simp [h2]

/-- C6: `scratch_buffer_append_len(string, len)` exits (returns `none`)
iff `len + scratch_buffer_len > MAX_STRING_BUFFER - 1`; an append whose
payload makes the total exactly `MAX_STRING_BUFFER - 1` is accepted and
extends the buffer contents by the payload (the exit happens before the
`memcpy`, so a rejected append leaves the buffer unmodified);
`scratch_buffer_append_char` obeys the same boundary for one character. -/
theorem scratch_append_boundary (MAX : Nat) (st : Scratch) (s : List Char) :
    (scratch_buffer_append_len MAX st s = none ↔ MAX - 1 < s.length + st.len)
    ∧ (s.length + st.len = MAX - 1 →
        ∃ st', scratch_buffer_append_len MAX st s = some st'
          ∧ st'.len = st.len + s.length
          ∧ scratch_buffer_to_string st' = scratch_buffer_to_string st ++ s)
    ∧ (∀ c : Char, scratch_buffer_append_char MAX st c = none ↔ MAX - 1 < st.len + 1) := by
  refine ⟨?_, ?_, ?_⟩
  · unfold scratch_buffer_append_len
    split <;> simp_all
  · intro h
    refine ⟨⟨writeChars st.data st.len s, st.len + s.length⟩, ?_, rfl, ?_⟩
    · unfold scratch_buffer_append_len
      rw [if_neg (by omega)]
    · unfold scratch_buffer_to_string
      exact range_map_writeChars s st.data st.len
  · intro c
    unfold scratch_buffer_append_char
    split <;> simp_all

/-- Witness for C6 with `MAX = 4`: appending two characters to a buffer of
length 1 makes the total exactly `MAX - 1 = 3` and is accepted. -/
theorem scratch_append_boundary_witness :
    ('a' :: 'b' :: []).length + (⟨fun _ => 'x', 1⟩ : Scratch).len = 4 - 1 ∧
    ∃ st', scratch_buffer_append_len 4 ⟨fun _ => 'x', 1⟩ ('a' :: 'b' :: []) = some st'
      ∧ st'.len = (⟨fun _ => 'x', 1⟩ : Scratch).len + ('a' :: 'b' :: []).length
      ∧ scratch_buffer_to_string st'
        = scratch_buffer_to_string ⟨fun _ => 'x', 1⟩ ++ ('a' :: 'b' :: []) :=
  ⟨by decide, (scratch_append_boundary 4 ⟨fun _ => 'x', 1⟩ ('a' :: 'b' :: [])).2.1 (by decide)⟩

/-- C10: every scratch-buffer operation that returns normally leaves
`scratch_buffer_len ≤ MAX_STRING_BUFFER - 1`; hence the null terminator
`scratch_buffer_to_string` writes at index `scratch_buffer_len` is within
the `MAX_STRING_BUFFER`-sized buffer, and the string it returns spans
exactly `scratch_buffer_len` characters. -/
theorem scratch_len_invariant (MAX : Nat) (hM : 1 ≤ MAX) (st : Scratch)
    (op : ScratchOp) (st' : Scratch) (h : scratch_step MAX st op = some st') :
    st'.len ≤ MAX - 1 ∧ st'.len < MAX
    ∧ (scratch_buffer_to_string st').length = st'.len := by
  have hlen : st'.len ≤ MAX - 1 := by
    cases op with
    | clear =>
      simp only [scratch_step, scratch_buffer_clear, Option.some.injEq] at h
      subst h
      dsimp only
      omega
    | append_len s =>
      simp only [scratch_step] at h
      unfold scratch_buffer_append_len at h
      split at h
      · exact absurd h (by simp)
      · simp only [Option.some.injEq] at h
        subst h
        dsimp only
        omega
    | append s =>
      simp only [scratch_step] at h
      unfold scratch_buffer_append scratch_buffer_append_len at h
      split at h
      · exact absurd h (by simp)
      · simp only [Option.some.injEq] at h
        subst h
        dsimp only
        omega
    | append_char c =>
      simp only [scratch_step] at h
      unfold scratch_buffer_append_char at h
      split at h
      · exact absurd h (by simp)
      · simp only [Option.some.injEq] at h
        subst h
        dsimp only
        omega
  refine ⟨hlen, by omega, ?_⟩
  unfold scratch_buffer_to_string
  simp

/-- Witness for C10: `scratch_buffer_clear` on a length-5 buffer with
`MAX = 2` returns normally and the invariant holds for the result. -/
theorem scratch_len_invariant_witness :
    (⟨fun _ => 'x', 0⟩ : Scratch).len ≤ 2 - 1 ∧ (⟨fun _ => 'x', 0⟩ : Scratch).len < 2
    ∧ (scratch_buffer_to_string (⟨fun _ => 'x', 0⟩ : Scratch)).length
      = (⟨fun _ => 'x', 0⟩ : Scratch).len :=
  scratch_len_invariant 2 (by decide) ⟨fun _ => 'x', 5⟩ ScratchOp.clear
    ⟨fun _ => 'x', 0⟩ rfl

/-! ## Standard-library source list -/

/-- C4 (amended): when a library directory is configured, `compiler_compile`
adds the six standard-library sources with `vec_add`, which places them
after the existing entries: the resulting list is the user-supplied sources
followed by runtime, builtin, io, mem, array, math, in that order (and the
list is unchanged when no library directory is configured). -/
theorem compiler_add_lib_sources_appends (l : List Char) (sources : List (List Char)) :
    compiler_add_lib_sources (some l) sources = sources ++ std_lib_sources l
    ∧ compiler_add_lib_sources none sources = sources := by
  constructor
  · simp [compiler_add_lib_sources, vec_add, std_lib_sources]
  · rfl

/-- Counterexample for C4 as stated: with library directory `"L"` and the
single user source `"a.c3"`, the sources list after the step does not begin
with the six standard-library paths followed by the user source — the user
source comes first. -/
theorem compiler_add_lib_sources_not_prepend :
    ¬ (compiler_add_lib_sources (some ("L").toList) [("a.c3").toList]
       = std_lib_sources ("L").toList ++ [("a.c3").toList]) := by
  decide

/-! ## Public-symbol registry lemmas -/

theorem register_global_other (reg : SymRegistry) (d : Decl) (n : String)
    (h : ¬ n = d.name) :
    (compiler_register_public_symbol reg d).global_symbols n = reg.global_symbols n := by
  simp [compiler_register_public_symbol, stable_set, h]

theorem register_global_self (reg : SymRegistry) (d : Decl) :
    (compiler_register_public_symbol reg d).global_symbols d.name
      = some (match reg.global_symbols d.name with
              | some _ => SymEntry.poisoned
              | none => SymEntry.decl d) := by
  simp [compiler_register_public_symbol, stable_set]

theorem register_all_append (ds : List Decl) (d : Decl) :
    register_all (ds ++ [d]) = compiler_register_public_symbol (register_all ds) d := by
  simp [register_all, List.foldl_append]

theorem global_after_register_all (ds : List Decl) (n : String) :
    (register_all ds).global_symbols n = globalResult ds n := by
  induction ds using List.reverseRecOn with
  | nil => rfl
  | append_singleton ds d ih =>
    rw [register_all_append]
    by_cases hn : d.name = n
    · subst hn
      rw [register_global_self, ih]
      unfold globalResult
      rw [List.filter_append]
      rcases hf : ds.filter (fun x => decide (x.name = d.name)) with _ | ⟨e, _ | ⟨f, rest⟩⟩ <;>
        simp [hf]
    · rw [register_global_other _ _ _ (fun he => hn he.symm), ih]
      unfold globalResult
      rw [List.filter_append]
      simp [hn]

/-- C2: `compiler_register_public_symbol` stores the declaration into
`global_symbols[decl->name]` when no previous entry exists and replaces any
existing entry (the same declaration again, or an already-poisoned entry)
with the poison sentinel; the same rule applies to the per-module sub-map
`qualified_symbols[decl->module][decl->name]`, created lazily on first
write.  After a sequence of registrations from the empty tables, an
unqualified name maps to the unique declaration iff it was registered
exactly once, to the poison sentinel iff registered at least twice, and to
nothing iff never registered. -/
theorem compiler_register_public_symbol_spec :
    (∀ (reg : SymRegistry) (d : Decl),
      (reg.global_symbols d.name = none →
        (compiler_register_public_symbol reg d).global_symbols d.name
          = some (SymEntry.decl d))
      ∧ (∀ e, reg.global_symbols d.name = some e →
        (compiler_register_public_symbol reg d).global_symbols d.name
          = some SymEntry.poisoned)
      ∧ (reg.qualified_symbols d.module = none →
        ∃ sub, (compiler_register_public_symbol reg d).qualified_symbols d.module = some sub
          ∧ sub d.name = some (SymEntry.decl d))
      ∧ (∀ sub, reg.qualified_symbols d.module = some sub →
        ∃ sub2,
          (compiler_register_public_symbol reg d).qualified_symbols d.module = some sub2
          ∧ sub2 d.name = some (match sub d.name with
              | some _ => SymEntry.poisoned
              | none => SymEntry.decl d)))
    ∧ (∀ (ds : List Decl) (n : String),
        (register_all ds).global_symbols n = globalResult ds n)
    ∧ (∀ (ds : List Decl) (n : String) (d : Decl),
        ds.filter (fun x => x.name = n) = [d] →
        (register_all ds).global_symbols n = some (SymEntry.decl d))
    ∧ (∀ (ds : List Decl) (n : String),
        2 ≤ (ds.filter (fun x => x.name = n)).length →
        (register_all ds).global_symbols n = some SymEntry.poisoned)
    ∧ (∀ (ds : List Decl) (n : String),
        (ds.filter (fun x => x.name = n)).length = 0 →
        (register_all ds).global_symbols n = none) := by
  refine ⟨fun reg d => ⟨?_, ?_, ?_, ?_⟩, ?_, ?_, ?_, ?_⟩
  · intro h
    rw [register_global_self, h]
  · intro e h
    rw [register_global_self, h]
  · intro hq
    refine ⟨stable_set (fun _ => none) d.name (SymEntry.decl d), ?_, ?_⟩
    · simp [compiler_register_public_symbol, stable_set, hq]
    · simp [stable_set]
  · intro sub hq
    refine ⟨stable_set sub d.name (match sub d.name with
        | some _ => SymEntry.poisoned
        | none => SymEntry.decl d), ?_, ?_⟩
    · simp [compiler_register_public_symbol, stable_set, hq]
    · simp [stable_set]
  · exact global_after_register_all
  · intro ds n d hf
    rw [global_after_register_all]
    unfold globalResult
    rw [hf]
  · intro ds n h2
    rw [global_after_register_all]
    unfold globalResult
    rcases hf : ds.filter (fun x => decide (x.name = n)) with _ | ⟨e, _ | ⟨f, rest⟩⟩ <;>
      rw [hf] at h2 <;> simp_all
  · intro ds n h0
    rw [global_after_register_all]
    unfold globalResult
    rw [List.length_eq_zero] at h0
    rw [h0]

/-- Witness for C2: registering `foo` from two modules poisons the
unqualified name; a single registration of `bar` leaves the declaration. -/
theorem compiler_register_public_symbol_spec_witness :
    (register_all [⟨"foo", "m1"⟩, ⟨"foo", "m2"⟩]).global_symbols "foo"
      = some SymEntry.poisoned
    ∧ (register_all [⟨"bar", "m1"⟩]).global_symbols "bar"
      = some (SymEntry.decl ⟨"bar", "m1"⟩) :=
  ⟨compiler_register_public_symbol_spec.2.2.2.1 [⟨"foo", "m1"⟩, ⟨"foo", "m2"⟩] "foo"
      (by decide),
   compiler_register_public_symbol_spec.2.2.1 [⟨"bar", "m1"⟩] "bar" ⟨"bar", "m1"⟩
      (by decide)⟩

/-! ## Module creation -/

theorem getD_snoc (l : List α) (m d : α) : (l ++ [m]).getD l.length d = m := by
  rw [List.getD_append_right _ _ _ _ (Nat.le_refl _)]
  simp

/-- C7: `compiler_find_or_create_module` is idempotent on the module name.
A first call with a fresh name creates a module at `ANALYSIS_NOT_BEGUN`
(stage 0), records it under the name, and appends it to
`generic_module_list` when `parameters` is non-null and to `module_list`
otherwise (the other list is untouched); every subsequent call with the
same name returns the same module (pointer identity = store index) and
changes nothing, regardless of the `parameters` argument it is passed. -/
theorem compiler_find_or_create_module_spec :
    (∀ (ctx : ModuleCtx) (name : String) (p : Option Nat),
      ctx.modules name = none →
      (compiler_find_or_create_module ctx name p).2.store.getD
          (compiler_find_or_create_module ctx name p).1 ⟨"", 0, none⟩ = ⟨name, 0, p⟩
      ∧ (compiler_find_or_create_module ctx name p).2.modules name
          = some (compiler_find_or_create_module ctx name p).1
      ∧ (p.isSome →
          (compiler_find_or_create_module ctx name p).2.generic_module_list
            = ctx.generic_module_list ++ [(compiler_find_or_create_module ctx name p).1]
          ∧ (compiler_find_or_create_module ctx name p).2.module_list = ctx.module_list)
      ∧ (p = none →
          (compiler_find_or_create_module ctx name p).2.module_list
            = ctx.module_list ++ [(compiler_find_or_create_module ctx name p).1]
          ∧ (compiler_find_or_create_module ctx name p).2.generic_module_list
            = ctx.generic_module_list))
    ∧ (∀ (ctx : ModuleCtx) (name : String) (id : Nat) (p' : Option Nat),
        ctx.modules name = some id →
        compiler_find_or_create_module ctx name p' = (id, ctx))
    ∧ (∀ (ctx : ModuleCtx) (name : String) (p p' : Option Nat),
        compiler_find_or_create_module
            (compiler_find_or_create_module ctx name p).2 name p'
          = compiler_find_or_create_module ctx name p) := by
  have hexist : ∀ (ctx : ModuleCtx) (name : String) (id : Nat) (p' : Option Nat),
      ctx.modules name = some id →
      compiler_find_or_create_module ctx name p' = (id, ctx) := by
    intro ctx name id p' h
    simp [compiler_find_or_create_module, h]
  have hafter : ∀ (ctx : ModuleCtx) (name : String) (p : Option Nat),
      (compiler_find_or_create_module ctx name p).2.modules name
        = some (compiler_find_or_create_module ctx name p).1 := by
    intro ctx name p
    unfold compiler_find_or_create_module
    cases h : ctx.modules name with
    | some id => simp [h]
    | none => simp [h, stable_set]
  refine ⟨?_, hexist, ?_⟩
  · intro ctx name p h
    refine ⟨?_, hafter ctx name p, ?_, ?_⟩
    · simp only [compiler_find_or_create_module, h]
      exact getD_snoc _ _ _
    · intro hp
      rcases p with _ | v
      · simp at hp
      · simp [compiler_find_or_create_module, h]
    · intro hp
      subst hp
      simp [compiler_find_or_create_module, h]
  · intro ctx name p p'
    have h2 := hafter ctx name p
    rw [hexist _ name _ p' h2]

/-- Witness for C7: creating module `m` with no parameters from the empty
state, then calling again with a parameter argument. -/
theorem compiler_find_or_create_module_spec_witness :
    ((compiler_find_or_create_module emptyModuleCtx "m" none).2.module_list
        = emptyModuleCtx.module_list
            ++ [(compiler_find_or_create_module emptyModuleCtx "m" none).1]
      ∧ (compiler_find_or_create_module emptyModuleCtx "m" none).2.generic_module_list
        = emptyModuleCtx.generic_module_list)
    ∧ compiler_find_or_create_module
        (compiler_find_or_create_module emptyModuleCtx "m" none).2 "m" (some 7)
      = compiler_find_or_create_module emptyModuleCtx "m" none :=
  ⟨(compiler_find_or_create_module_spec.1 emptyModuleCtx "m" none rfl).2.2.2 rfl,
   compiler_find_or_create_module_spec.2.2 emptyModuleCtx "m" none (some 7)⟩

/-! ## Arena initialization -/

theorem arena_run_user_index (seq : List ArenaId) :
    ∀ (st : Arenas),
      1 ≤ st.allocated ArenaId.sourceloc →
      1 ≤ st.allocated ArenaId.toktype →
      1 ≤ st.allocated ArenaId.tokdata →
      ∀ (a : ArenaId) (ix : Nat), (a, ix) ∈ (arena_run seq st).1 →
        (a = ArenaId.sourceloc ∨ a = ArenaId.toktype ∨ a = ArenaId.tokdata) → 1 ≤ ix := by
  induction seq with
  | nil => intro st _ _ _ a ix h
           simp [arena_run] at h
  | cons b rest ih =>
    intro st h1 h2 h3 a ix hmem ha
    simp only [arena_run, List.mem_cons] at hmem
    rcases hmem with heq | htail
    · have hbix : a = b ∧ ix = st.allocated b := by
        exact ⟨congrArg Prod.fst heq, congrArg Prod.snd heq⟩
      rcases hbix with ⟨rfl, rfl⟩
      rcases ha with rfl | rfl | rfl
      · exact h1
      · exact h2
      · exact h3
    · refine ih ((arena_calloc b st).2) ?_ ?_ ?_ a ix htail ha <;>
        · simp only [arena_calloc]
          split <;> omega

/-- Counterexample for C8 as stated: `compiler_init` pre-allocates a zero
index only in the source-location, token-type and token-data arenas; the
AST arena gets no pre-allocation, so the first user allocation from it
returns index 0 — index 0 is not reserved there. -/
theorem compiler_init_ast_index_not_reserved :
    ¬ (∀ p ∈ (arena_run [ArenaId.ast] compiler_init_arenas).1, 1 ≤ p.2) := by
  decide

/-- C8 (amended): the pre-allocations in `compiler_init` reserve index 0 in
the source-location, token-type and token-data arenas (each has exactly one
element allocated afterwards, and every subsequent user allocation from
them returns an index of at least 1); the AST arena receives no zero-index
pre-allocation. -/
theorem compiler_init_reserves_zero_index :
    compiler_init_arenas.allocated ArenaId.sourceloc = 1
    ∧ compiler_init_arenas.allocated ArenaId.toktype = 1
    ∧ compiler_init_arenas.allocated ArenaId.tokdata = 1
    ∧ compiler_init_arenas.allocated ArenaId.ast = 0
    ∧ (∀ (seq : List ArenaId) (a : ArenaId) (ix : Nat),
        (a, ix) ∈ (arena_run seq compiler_init_arenas).1 →
        (a = ArenaId.sourceloc ∨ a = ArenaId.toktype ∨ a = ArenaId.tokdata) →
        1 ≤ ix) := by
  refine ⟨rfl, rfl, rfl, rfl, ?_⟩
  intro seq a ix hmem ha
  exact arena_run_user_index seq compiler_init_arenas (by decide) (by decide) (by decide)
    a ix hmem ha

/-- Witness for C8 (amended): a user allocation from the source-location
arena right after `compiler_init` returns index 1. -/
theorem compiler_init_reserves_zero_index_witness :
    (ArenaId.sourceloc, 1) ∈ (arena_run [ArenaId.sourceloc] compiler_init_arenas).1
    ∧ 1 ≤ (1 : Nat) :=
  ⟨by decide,
   compiler_init_reserves_zero_index.2.2.2.2 [ArenaId.sourceloc] ArenaId.sourceloc 1
     (by decide) (Or.inl rfl)⟩

/-! ## Empty source list -/

/-- C9: compiling with an empty source list exits non-zero with a no-files
message: `compile()` fails with "No files to compile." whenever the
expanded source list is empty (in particular for an empty source list,
whose expansion is empty), and `compiler_compile` fails with "No source
files to compile." when zero translation contexts were produced.  Both
failures are returned for every possible analysis result `a`, so the
process exits before any analysis stage runs. -/
theorem compile_no_files :
    (∀ (fs : List Char → Bool → List (List Char)) (cached : List Char → Bool)
       (lib : Option (List Char)) {α : Type} (a : α) (sources : List (List Char)),
      target_expand_source_names fs sources = some [] →
      compile_model fs cached lib sources a = Except.error "No files to compile.")
    ∧ (∀ (lib : Option (List Char)) (cached : List Char → Bool)
         (sources : List (List Char)) {α : Type} (a : α),
        ((compiler_add_lib_sources lib sources).filter (fun s => ¬ cached s)).length = 0 →
        compiler_compile_front lib cached sources a
          = Except.error "No source files to compile.")
    ∧ (∀ (fs : List Char → Bool → List (List Char)) (cached : List Char → Bool)
         (lib : Option (List Char)) {α : Type} (a : α),
        compile_model fs cached lib [] a = Except.error "No files to compile.") := by
  refine ⟨?_, ?_, ?_⟩
  · intro fs cached lib α a sources h
    simp [compile_model, h]
  · intro lib cached sources α a h
    simp only [compiler_compile_front]
    rw [if_pos h]
  · intro fs cached lib α a
    rfl

/-- Witness for C9: the empty source list expands to the empty list and the
driver reports "No files to compile."; a configuration whose sources are
all cached produces zero contexts and `compiler_compile` reports "No source
files to compile.". -/
theorem compile_no_files_witness :
    compile_model (fun _ _ => []) (fun _ => false) none [] (0 : Nat)
      = Except.error "No files to compile."
    ∧ compiler_compile_front none (fun _ => true) [("a.c3").toList] (0 : Nat)
      = Except.error "No source files to compile." :=
  ⟨compile_no_files.1 (fun _ _ => []) (fun _ => false) none 0 [] rfl,
   compile_no_files.2.1 none (fun _ => true) [("a.c3").toList] 0 (by decide)⟩

/-! ## Source-name expansion lemmas -/

theorem getD_append_add (t u : List Char) (k : Nat) (c : Char) :
    (t ++ u).getD (t.length + k) c = u.getD k c := by
  rw [List.getD_append_right _ _ _ _ (Nat.le_add_right _ _)]
  simp

theorem getD_drop (s : List Char) :
    ∀ (k j : Nat) (c : Char), (s.drop k).getD j c = s.getD (k + j) c := by
  induction s with
  | nil => intro k j c; simp
  | cons a l ih =>
    intro k j c
    cases k with
    | zero => simp
    | succ k =>
      simp only [List.drop_succ_cons]
      rw [ih k j c, Nat.succ_add]
      rfl

theorem eq_single (u : List Char) (h : u.length = 1) : u = [u.getD 0 ' '] := by
  cases u with
  | nil => simp at h
  | cons a u' => cases u' with
    | nil => rfl
    | cons b u'' => simp at h

theorem eq_pair (u : List Char) (h : u.length = 2) :
    u = [u.getD 0 ' ', u.getD 1 ' '] := by
  cases u with
  | nil => simp at h
  | cons a u' => cases u' with
    | nil => simp at h
    | cons b u'' => cases u'' with
      | nil => rfl
      | cons c u3 => simp at h

theorem eq_triple (u : List Char) (h : u.length = 3) :
    u = [u.getD 0 ' ', u.getD 1 ' ', u.getD 2 ' '] := by
  cases u with
  | nil => simp at h
  | cons a u' => cases u' with
    | nil => simp at h
    | cons b u'' => cases u'' with
      | nil => simp at h
      | cons c u3 => cases u3 with
        | nil => rfl
        | cons d u4 => simp at h

theorem eq_append_last_two (s : List Char) (h : 2 ≤ s.length) :
    s = s.take (s.length - 2)
        ++ [s.getD (s.length - 2) ' ', s.getD (s.length - 1) ' '] := by
  have hdl : (s.drop (s.length - 2)).length = 2 := by rw [List.length_drop]; omega
  have h2 := eq_pair (s.drop (s.length - 2)) hdl
  rw [getD_drop, getD_drop] at h2
  have e0 : s.length - 2 + 0 = s.length - 2 := by omega
  have e1 : s.length - 2 + 1 = s.length - 1 := by omega
  rw [e0, e1] at h2
  conv_lhs => rw [← List.take_append_drop (s.length - 2) s]
  rw [h2]

theorem eq_append_last_three (s : List Char) (h : 3 ≤ s.length) :
    s = s.take (s.length - 3)
        ++ [s.getD (s.length - 3) ' ', s.getD (s.length - 2) ' ',
            s.getD (s.length - 1) ' '] := by
  have hdl : (s.drop (s.length - 3)).length = 3 := by rw [List.length_drop]; omega
  have h3 := eq_triple (s.drop (s.length - 3)) hdl
  rw [getD_drop, getD_drop, getD_drop] at h3
  have e0 : s.length - 3 + 0 = s.length - 3 := by omega
  have e1 : s.length - 3 + 1 = s.length - 2 := by omega
  have e2 : s.length - 3 + 2 = s.length - 1 := by omega
  rw [e0, e1, e2] at h3
  conv_lhs => rw [← List.take_append_drop (s.length - 3) s]
  rw [h3]

theorem expand_invalid_of_not_shapes (s : List Char)
    (h1 : ¬ (s = ['*'] ∨ endsWith ['/', '*'] s))
    (h2 : ¬ (s = ['*', '*'] ∨ endsWith ['/', '*', '*'] s))
    (h3 : ¬ endsWith ['.', 'c', '3'] s) :
    expand_source_name s = ExpandResult.invalid := by
  simp only [expand_source_name]
  split
  · rfl
  · next hn1 =>
    split
    · next hstar =>
      split
      · next hc =>
        exfalso
        rcases hc with hone | hsl
        · apply h1
          left
          have i1 : s.length - 1 = 0 := by omega
          rw [i1] at hstar
          rw [eq_single s hone, hstar]
        · by_cases hone : s.length = 1
          · have i1 : s.length - 1 = 0 := by omega
            have i2 : s.length - 2 = 0 := by omega
            rw [i1] at hstar
            rw [i2] at hsl
            exact absurd (hstar.symm.trans hsl) (by decide)
          · have hge : 2 ≤ s.length := by omega
            apply h1
            right
            have heq := eq_append_last_two s hge
            rw [hsl, hstar] at heq
            exact ⟨_, heq⟩
      · next hc =>
        split
        · rfl
        · next hstar2' =>
          have hstar2 : s.getD (s.length - 2) ' ' = '*' := not_not.mp hstar2'
          split
          · next hc2 =>
            exfalso
            rcases hc2 with htwo | hsl
            · apply h2
              left
              have i1 : s.length - 1 = 1 := by omega
              have i2 : s.length - 2 = 0 := by omega
              rw [i1] at hstar
              rw [i2] at hstar2
              rw [eq_pair s htwo, hstar2, hstar]
            · by_cases htwo : s.length = 2
              · have i2 : s.length - 2 = 0 := by omega
                have i3 : s.length - 3 = 0 := by omega
                rw [i2] at hstar2
                rw [i3] at hsl
                exact absurd (hstar2.symm.trans hsl) (by decide)
              · have hone : ¬ s.length = 1 := fun h => hc (Or.inl h)
                have hge : 3 ≤ s.length := by omega
                apply h2
                right
                have heq := eq_append_last_three s hge
                rw [hsl, hstar2, hstar] at heq
                exact ⟨_, heq⟩
          · rfl
    · split
      · rfl
      · split
        · next hdrop =>
          exfalso
          apply h3
          refine ⟨s.take (s.length - 3), ?_⟩
          conv_lhs => rw [← List.take_append_drop (s.length - 3) s]
          rw [hdrop]
        · rfl

theorem expand_all_none_of_invalid (fs : List Char → Bool → List (List Char)) :
    ∀ (sources : List (List Char)) (s : List Char), s ∈ sources →
      expand_source_name s = ExpandResult.invalid →
      target_expand_source_names fs sources = none := by
  intro sources
  induction sources with
  | nil => intro s h; simp at h
  | cons a rest ih =>
    intro s hs hinv
    rcases List.mem_cons.mp hs with rfl | hmem
    · simp [target_expand_source_names, hinv]
    · cases ha : expand_source_name a <;>
        simp [target_expand_source_names, ha, ih s hmem hinv]

/-- C5: `target_expand_source_names` classifies every source entry: an
entry that is `*` alone or ends in `/*` expands to the non-recursive
wildcard of that directory (the entry with the final `*` cut off); an entry
that is `**` alone or ends in `/**` expands recursively (final `**` cut
off); an entry is accepted as a plain file only if it ends in `.c3`; every
entry that is not one of the wildcard shapes and does not end in `.c3` is
invalid, as is in particular every other entry ending in `*`; and an
invalid entry anywhere in the source list makes the driver exit with the
invalid-name diagnostic before anything is loaded or parsed. -/
theorem target_expand_source_names_classification :
    (∀ s : List Char, (s = ['*'] ∨ endsWith ['/', '*'] s) →
      expand_source_name s = ExpandResult.wildcard false (s.take (s.length - 1)))
    ∧ (∀ s : List Char, (s = ['*', '*'] ∨ endsWith ['/', '*', '*'] s) →
      expand_source_name s = ExpandResult.wildcard true (s.take (s.length - 2)))
    ∧ (∀ s : List Char, (∃ m, expand_source_name s = ExpandResult.file m) →
      endsWith ['.', 'c', '3'] s)
    ∧ (∀ s : List Char, ¬ (s = ['*'] ∨ endsWith ['/', '*'] s) →
        ¬ (s = ['*', '*'] ∨ endsWith ['/', '*', '*'] s) →
        ¬ endsWith ['.', 'c', '3'] s →
        expand_source_name s = ExpandResult.invalid)
    ∧ (∀ s : List Char, endsWith ['*'] s →
        ¬ (s = ['*'] ∨ endsWith ['/', '*'] s) →
        ¬ (s = ['*', '*'] ∨ endsWith ['/', '*', '*'] s) →
        expand_source_name s = ExpandResult.invalid)
    ∧ (∀ (fs : List Char → Bool → List (List Char)) (cached : List Char → Bool)
         (lib : Option (List Char)) {α : Type} (a : α)
         (sources : List (List Char)) (s : List Char),
        s ∈ sources → expand_source_name s = ExpandResult.invalid →
        compile_model fs cached lib sources a
          = Except.error "File names must end with .c3 or they cannot be compiled.") := by
  refine ⟨?_, ?_, ?_, expand_invalid_of_not_shapes, ?_, ?_⟩
  · intro s hs
    rcases hs with rfl | ⟨t, rfl⟩
    · decide
    · have hn : (t ++ ['/', '*']).length = t.length + 2 := by simp
      have e1 : t.length + 2 - 1 = t.length + 1 := rfl
      have e2 : t.length + 2 - 2 = t.length + 0 := by omega
      have hstar : (t ++ ['/', '*']).getD (t.length + 1) ' ' = '*' := by
        rw [getD_append_add]
        rfl
      have hslash : (t ++ ['/', '*']).getD (t.length + 0) ' ' = '/' := by
        rw [getD_append_add]
        rfl
      simp only [expand_source_name, hn]
      rw [e1, e2, if_neg (by omega), if_pos hstar, if_pos (Or.inr hslash)]
  · intro s hs
    rcases hs with rfl | ⟨t, rfl⟩
    · decide
    · have hn : (t ++ ['/', '*', '*']).length = t.length + 3 := by simp
      have e1 : t.length + 3 - 1 = t.length + 2 := rfl
      have e2 : t.length + 3 - 2 = t.length + 1 := by omega
      have e3 : t.length + 3 - 3 = t.length + 0 := by omega
      have hstar1 : (t ++ ['/', '*', '*']).getD (t.length + 2) ' ' = '*' := by
        rw [getD_append_add]
        rfl
      have hstar2 : (t ++ ['/', '*', '*']).getD (t.length + 1) ' ' = '*' := by
        rw [getD_append_add]
        rfl
      have hslash : (t ++ ['/', '*', '*']).getD (t.length + 0) ' ' = '/' := by
        rw [getD_append_add]
        rfl
      have hn1 : ¬ (t.length + 3 = 1) := by omega
      simp only [expand_source_name, hn]
      rw [e1, e2, e3, if_neg (by omega), if_pos hstar1,
        if_neg (fun hc => hc.elim hn1 (fun h => absurd (hstar2.symm.trans h) (by decide))),
        if_neg (not_not_intro hstar2), if_pos (Or.inr hslash)]
  · intro s hex
    obtain ⟨m, hm⟩ := hex
    simp only [expand_source_name] at hm
    split at hm
    · simp at hm
    · split at hm
      · split at hm
        · simp at hm
        · split at hm
          · simp at hm
          · split at hm
            · simp at hm
            · simp at hm
      · split at hm
        · simp at hm
        · split at hm
          · next hdrop =>
            refine ⟨s.take (s.length - 3), ?_⟩
            conv_lhs => rw [← List.take_append_drop (s.length - 3) s]
            rw [hdrop]
          · simp at hm
  · intro s hstar h1 h2
    refine expand_invalid_of_not_shapes s h1 h2 ?_
    rintro ⟨u, hu⟩
    obtain ⟨t, ht⟩ := hstar
    have hlast1 : s.getD (s.length - 1) ' ' = '*' := by
      rw [ht]
      have : (t ++ ['*']).length - 1 = t.length + 0 := by simp
      rw [this, getD_append_add]
      rfl
    have hlast2 : s.getD (s.length - 1) ' ' = '3' := by
      rw [hu]
      have : (u ++ ['.', 'c', '3']).length - 1 = u.length + 2 := by simp
      rw [this, getD_append_add]
      rfl
    exact absurd (hlast1.symm.trans hlast2) (by decide)
  · intro fs cached lib α a sources s hs hinv
    simp [compile_model, expand_all_none_of_invalid fs sources s hs hinv]

/-- Witness for C5: the entry `src/*` is classified as a non-recursive
wildcard of the directory `src/`, and a source list containing the invalid
entry `foo.txt` makes the driver exit with the invalid-name diagnostic. -/
theorem target_expand_source_names_classification_witness :
    expand_source_name ("src/*").toList
      = ExpandResult.wildcard false (("src/*").toList.take (("src/*").toList.length - 1))
    ∧ compile_model (fun _ _ => []) (fun _ => false) none
        [("foo.txt").toList] (0 : Nat)
      = Except.error "File names must end with .c3 or they cannot be compiled." :=
  ⟨target_expand_source_names_classification.1 ("src/*").toList
      (Or.inr ⟨['s', 'r', 'c'], by decide⟩),
   target_expand_source_names_classification.2.2.2.2.2 (fun _ _ => [])
      (fun _ => false) none 0 [("foo.txt").toList] ("foo.txt").toList
      (by decide) (by decide)⟩

/-! ## The staged analysis pipeline: lemmas and theorems -/

theorem runPass_stageOf (oracle : Nat → PassEffect) (i : Nat) (st : PState) :
    (runPass oracle i st).stageOf = st.stageOf := rfl

theorem runPass_halted (oracle : Nat → PassEffect) (i : Nat) (st : PState) :
    (runPass oracle i st).halted = st.halted := rfl

theorem runPass_log (oracle : Nat → PassEffect) (i : Nat) (st : PState) :
    (runPass oracle i st).log
      = st.log ++ [⟨i, st.stageOf i, snapshotStages st, st.errors⟩] := rfl

theorem runPass_errors_le (oracle : Nat → PassEffect) (i : Nat) (st : PState) :
    st.errors ≤ (runPass oracle i st).errors := Nat.le_add_right _ _

theorem runPass_count_le (oracle : Nat → PassEffect) (i : Nat) (st : PState) :
    st.count ≤ (runPass oracle i st).count := Nat.le_add_right _ _

theorem runPass_count_eq (oracle : Nat → PassEffect) (i : Nat) (st : PState) :
    (runPass oracle i st).count
      = st.count + (if st.stageOf i = 1 then (oracle st.time).appendCount else 0) := rfl

theorem sema_done (oracle : Nat → PassEffect) {i S : Nat} (fuel : Nat) (st : PState)
    (h : ¬ st.stageOf i < S) : sema_analyze_stage oracle i S fuel st = st := by
  cases fuel with
  | zero => rfl
  | succ fuel => simp [sema_analyze_stage, h]

theorem sema_step (oracle : Nat → PassEffect) {i : Nat} (S : Nat) (fuel : Nat)
    (st : PState) (hfuel : 1 ≤ fuel) (hlt : st.stageOf i < S)
    (heq : st.stageOf i = S - 1) :
    sema_analyze_stage oracle i S fuel st
      = runPass oracle i { st with stageOf := setStage st.stageOf i S } := by
  have hS : st.stageOf i + 1 = S := by omega
  cases fuel with
  | zero => omega
  | succ fuel =>
    simp only [sema_analyze_stage, if_pos hlt]
    rw [hS]
    have hdone : sema_analyze_stage oracle i S fuel
        (runPass oracle i { st with stageOf := setStage st.stageOf i S })
        = runPass oracle i { st with stageOf := setStage st.stageOf i S } := by
      apply sema_done
      simp [runPass, setStage]
    rw [hdone, ite_self]

theorem errEvents_append (l l' : List PassEvent) :
    errEvents (l ++ l') = errEvents l ++ errEvents l' := List.filter_append _ _

theorem errEvents_singleton (e : PassEvent) :
    errEvents [e] = [e] ∨ errEvents [e] = [] := by
  simp only [errEvents, List.filter]
  split
  · exact Or.inl rfl
  · exact Or.inr rfl

theorem analyze_loop_spec (oracle : Nat → PassEffect) (S : Nat) (hS : 1 ≤ S) :
    ∀ (fuel i : Nat) (st : PState),
      WFP st → WithinStage S st →
      (∀ j, j < i → j < st.count → st.stageOf j = S ∨ 0 < st.errors) →
      (∀ e ∈ errEvents st.log, e.moduleIdx < i) →
      List.Pairwise (fun a b => a.moduleIdx ≠ b.moduleIdx) (errEvents st.log) →
      (∀ e ∈ st.log, e.errorsAtBegin ≤ st.errors) →
      (∀ e ∈ st.log, GoodEvent e) →
      WFP (analyze_to_stage_loop oracle S fuel i st)
      ∧ (∀ e ∈ (analyze_to_stage_loop oracle S fuel i st).log, GoodEvent e)
      ∧ List.Pairwise (fun a b => a.moduleIdx ≠ b.moduleIdx)
          (errEvents (analyze_to_stage_loop oracle S fuel i st).log)
      ∧ (∀ e ∈ (analyze_to_stage_loop oracle S fuel i st).log,
          e.errorsAtBegin ≤ (analyze_to_stage_loop oracle S fuel i st).errors)
      ∧ st.errors ≤ (analyze_to_stage_loop oracle S fuel i st).errors
      ∧ ((analyze_to_stage_loop oracle S fuel i st).halted = true
         ∨ ((analyze_to_stage_loop oracle S fuel i st).halted = st.halted
            ∧ (0 < (analyze_to_stage_loop oracle S fuel i st).errors
               ∨ ∀ j, j < (analyze_to_stage_loop oracle S fuel i st).count →
                   (analyze_to_stage_loop oracle S fuel i st).stageOf j = S))) := by
  intro fuel
  induction fuel with
  | zero =>
    intro i st hwf hwithin hdone herr hpw hbelow hgood
    exact ⟨hwf, hgood, hpw, hbelow, Nat.le_refl _, Or.inl rfl⟩
  | succ fuel ih =>
    intro i st hwf hwithin hdone herr hpw hbelow hgood
    simp only [analyze_to_stage_loop]
    split
    · next hi =>
      by_cases hlt : st.stageOf i < S
      · have hst : st.stageOf i = S - 1 := by
          rcases hwithin i hi with h | h
          · omega
          · exact h
        rw [sema_step oracle S S st hS hlt hst]
        set st1 : PState := { st with stageOf := setStage st.stageOf i S } with hst1
        set ev : PassEvent := ⟨i, S, snapshotStages st1, st.errors⟩ with hev
        have hlog2 : (runPass oracle i st1).log = st.log ++ [ev] := by
          rw [runPass_log]
          have : st1.stageOf i = S := by simp [hst1, setStage]
          simp [hst1, hev, setStage]
        have herrle : st.errors ≤ (runPass oracle i st1).errors := runPass_errors_le oracle i st1
        have hcntle : st.count ≤ (runPass oracle i st1).count := runPass_count_le oracle i st1
        have hstage2 : (runPass oracle i st1).stageOf = setStage st.stageOf i S := rfl
        -- invariants for the recursive call at i + 1
        have hwf2 : WFP (runPass oracle i st1) := by
          intro j hj
          rw [hstage2]
          have hjc : st.count ≤ j := le_trans hcntle hj
          have hne : ¬ j = i := by omega
          simp only [setStage, if_neg hne]
          exact hwf j hjc
        have hwithin2 : WithinStage S (runPass oracle i st1) := by
          intro j hj
          rw [hstage2]
          by_cases hji : j = i
          · subst hji
            simp [setStage]
          · simp only [setStage, if_neg hji]
            rcases Nat.lt_or_ge j st.count with hc | hc
            · exact hwithin j hc
            · -- appended module: only possible when S = 1
              rw [runPass_count_eq] at hj
              have hcc : st1.count = st.count := rfl
              rw [hcc] at hj
              have hS1 : st1.stageOf i = 1 := by
                by_contra hn1
                rw [if_neg hn1] at hj
                omega
              have hSone : S = 1 := by
                have hsi : st1.stageOf i = S := by simp [hst1, setStage]
                omega
              right
              rw [hwf j hc, hSone]
        have hdone2 : ∀ j, j < i + 1 → j < (runPass oracle i st1).count →
            (runPass oracle i st1).stageOf j = S ∨ 0 < (runPass oracle i st1).errors := by
          intro j hj _
          rw [hstage2]
          by_cases hji : j = i
          · subst hji
            left
            simp [setStage]
          · have hjlt : j < i := by omega
            simp only [setStage, if_neg hji]
            rcases hdone j hjlt (by omega) with h | h
            · exact Or.inl h
            · exact Or.inr (Nat.lt_of_lt_of_le h herrle)
        have herr2 : ∀ e ∈ errEvents (runPass oracle i st1).log, e.moduleIdx < i + 1 := by
          intro e he
          rw [hlog2, errEvents_append] at he
          rcases List.mem_append.mp he with h | h
          · exact Nat.lt_succ_of_lt (herr e h)
          · have : e ∈ [ev] := List.mem_of_mem_filter h
            rw [List.mem_singleton] at this
            subst this
            exact Nat.lt_succ_self i
        have hpw2 : List.Pairwise (fun a b => a.moduleIdx ≠ b.moduleIdx)
            (errEvents (runPass oracle i st1).log) := by
          rw [hlog2, errEvents_append]
          rw [List.pairwise_append]
          refine ⟨hpw, ?_, ?_⟩
          · rcases errEvents_singleton ev with h | h <;> rw [h]
            · exact List.pairwise_singleton _ _
            · exact List.Pairwise.nil
          · intro a ha b hb
            have hbev : b ∈ [ev] := List.mem_of_mem_filter hb
            rw [List.mem_singleton] at hbev
            subst hbev
            have hai := herr a ha
            have hevm : ev.moduleIdx = i := rfl
            omega
        have hbelow2 : ∀ e ∈ (runPass oracle i st1).log,
            e.errorsAtBegin ≤ (runPass oracle i st1).errors := by
          intro e he
          rw [hlog2] at he
          rcases List.mem_append.mp he with h | h
          · exact le_trans (hbelow e h) herrle
          · rw [List.mem_singleton] at h
            subst h
            exact herrle
        have hgood2 : ∀ e ∈ (runPass oracle i st1).log, GoodEvent e := by
          intro e he
          rw [hlog2] at he
          rcases List.mem_append.mp he with h | h
          · exact hgood e h
          · rw [List.mem_singleton] at h
            subst h
            intro x hx
            have hevs : ev.stage = S := rfl
            have hevl : ev.stagesAtBegin = snapshotStages st1 := rfl
            rw [hevl] at hx
            rw [hevs]
            simp only [snapshotStages, List.mem_map, List.mem_range] at hx
            obtain ⟨j, hjc', rfl⟩ := hx
            have hjc : j < st.count := hjc'
            simp only [setStage]
            split
            · omega
            · rcases hwithin j hjc with hw | hw <;> omega
        have hrec := ih (i + 1) (runPass oracle i st1) hwf2 hwithin2 hdone2 herr2
          hpw2 hbelow2 hgood2
        obtain ⟨h1, h2, h3, h4, h5, h6⟩ := hrec
        refine ⟨h1, h2, h3, h4, le_trans herrle h5, ?_⟩
        rcases h6 with h | ⟨hh, hd⟩
        · exact Or.inl h
        · refine Or.inr ⟨?_, hd⟩
          rw [hh, runPass_halted]
      · rw [sema_done oracle S st hlt]
        apply ih (i + 1) st hwf hwithin ?_ ?_ hpw hbelow hgood
        · intro j hj hjc
          by_cases hji : j = i
          · subst hji
            left
            rcases hwithin j hjc with h | h
            · exact h
            · omega
          · exact hdone j (by omega) hjc
        · intro e he
          exact Nat.lt_succ_of_lt (herr e he)
    · next hi =>
      refine ⟨hwf, hgood, hpw, hbelow, Nat.le_refl _, Or.inr ⟨rfl, ?_⟩⟩
      by_cases he : 0 < st.errors
      · exact Or.inl he
      · right
        intro j hj
        rcases hdone j (by omega) hj with h | h
        · exact h
        · omega

theorem halt_log (st : PState) : (halt_on_error st).log = st.log := by
  unfold halt_on_error; split <;> rfl

theorem halt_errors (st : PState) : (halt_on_error st).errors = st.errors := by
  unfold halt_on_error; split <;> rfl

theorem halt_count (st : PState) : (halt_on_error st).count = st.count := by
  unfold halt_on_error; split <;> rfl

theorem halt_stageOf (st : PState) : (halt_on_error st).stageOf = st.stageOf := by
  unfold halt_on_error; split <;> rfl

theorem halt_halted_mono (st : PState) (h : st.halted = true) :
    (halt_on_error st).halted = true := by
  unfold halt_on_error; split <;> simp [h]

theorem halt_halted_of_pos (st : PState) (h : 0 < st.errors) :
    (halt_on_error st).halted = true := by
  unfold halt_on_error; rw [if_pos h]

theorem halt_halted_of_zero (st : PState) (h : st.errors = 0) :
    (halt_on_error st).halted = st.halted := by
  unfold halt_on_error; rw [if_neg (by omega)]

theorem analyze_stage_spec (oracle : Nat → PassEffect) (S : Nat) (hS : 1 ≤ S)
    (fuel : Nat) (st : PState)
    (hwf : WFP st) (hwithin : WithinStage S st) (herrz : st.errors = 0)
    (hbelow : ∀ e ∈ st.log, e.errorsAtBegin ≤ st.errors)
    (hgood : ∀ e ∈ st.log, GoodEvent e)
    (hpw : List.Pairwise (fun a b => a.moduleIdx ≠ b.moduleIdx) (errEvents st.log)) :
    WFP (analyze_to_stage oracle S fuel st)
    ∧ (∀ e ∈ (analyze_to_stage oracle S fuel st).log, GoodEvent e)
    ∧ List.Pairwise (fun a b => a.moduleIdx ≠ b.moduleIdx)
        (errEvents (analyze_to_stage oracle S fuel st).log)
    ∧ (∀ e ∈ (analyze_to_stage oracle S fuel st).log,
        e.errorsAtBegin ≤ (analyze_to_stage oracle S fuel st).errors)
    ∧ ((analyze_to_stage oracle S fuel st).halted = true
       ∨ ((analyze_to_stage oracle S fuel st).halted = st.halted
          ∧ (analyze_to_stage oracle S fuel st).errors = 0
          ∧ ∀ j, j < (analyze_to_stage oracle S fuel st).count →
              (analyze_to_stage oracle S fuel st).stageOf j = S)) := by
  have hdone0 : ∀ j, j < 0 → j < st.count → st.stageOf j = S ∨ 0 < st.errors :=
    fun j hj _ => absurd hj (Nat.not_lt_zero j)
  have herrempty : ∀ e ∈ errEvents st.log, e.moduleIdx < 0 := by
    intro e he
    have he' : e ∈ List.filter (fun x => decide (0 < x.errorsAtBegin)) st.log := he
    have h1 : e ∈ st.log := (List.mem_filter.mp he').1
    have h3 : 0 < e.errorsAtBegin := by
      have h2 := (List.mem_filter.mp he').2
      simpa using h2
    have h4 := hbelow e h1
    omega
  obtain ⟨h1, h2, h3, h4, h5, h6⟩ :=
    analyze_loop_spec oracle S hS fuel 0 st hwf hwithin hdone0 herrempty hpw hbelow hgood
  unfold analyze_to_stage
  refine ⟨?_, ?_, ?_, ?_, ?_⟩
  · intro j hj
    rw [halt_stageOf]
    rw [halt_count] at hj
    exact h1 j hj
  · rw [halt_log]
    exact h2
  · rw [halt_log]
    exact h3
  · intro e he
    rw [halt_log] at he
    rw [halt_errors]
    exact h4 e he
  · rcases h6 with h | ⟨hh, hd⟩
    · exact Or.inl (halt_halted_mono _ h)
    · rcases hd with hpos | hall
      · exact Or.inl (halt_halted_of_pos _ hpos)
      · by_cases hl0 : 0 < (analyze_to_stage_loop oracle S fuel 0 st).errors
        · exact Or.inl (halt_halted_of_pos _ hl0)
        · have hz : (analyze_to_stage_loop oracle S fuel 0 st).errors = 0 := by omega
          refine Or.inr ⟨?_, ?_, ?_⟩
          · rw [halt_halted_of_zero _ hz, hh]
          · rw [halt_errors]
            exact hz
          · intro j hj
            rw [halt_stageOf]
            rw [halt_count] at hj
            exact hall j hj

theorem run_stages_spec (oracle : Nat → PassEffect) (fuel : Nat) :
    ∀ (n S : Nat) (st : PState), 1 ≤ S → WFP st →
      (st.halted = true ∨ (st.errors = 0 ∧ ∀ j, j < st.count → st.stageOf j = S - 1)) →
      (∀ e ∈ st.log, GoodEvent e) →
      (∀ e ∈ st.log, e.errorsAtBegin ≤ st.errors) →
      List.Pairwise (fun a b => a.moduleIdx ≠ b.moduleIdx) (errEvents st.log) →
      (0 < st.errors → st.halted = true) →
      (∀ e ∈ (run_stages_from oracle fuel S n st).log, GoodEvent e)
      ∧ List.Pairwise (fun a b => a.moduleIdx ≠ b.moduleIdx)
          (errEvents (run_stages_from oracle fuel S n st).log)
      ∧ (0 < (run_stages_from oracle fuel S n st).errors →
          (run_stages_from oracle fuel S n st).halted = true) := by
  intro n
  induction n with
  | zero =>
    intro S st hS hwf hd hgood hbelow hpw hhalt
    exact ⟨hgood, hpw, hhalt⟩
  | succ n ih =>
    intro S st hS hwf hd hgood hbelow hpw hhalt
    simp only [run_stages_from]
    split
    · next hh => exact ⟨hgood, hpw, hhalt⟩
    · next hh =>
      have hd2 : st.errors = 0 ∧ ∀ j, j < st.count → st.stageOf j = S - 1 := by
        rcases hd with h | h
        · exact absurd h hh
        · exact h
      have hwithin : WithinStage S st := fun j hj => Or.inr (hd2.2 j hj)
      obtain ⟨k1, k2, k3, k4, k5⟩ :=
        analyze_stage_spec oracle S hS fuel st hwf hwithin hd2.1 hbelow hgood hpw
      apply ih (S + 1) (analyze_to_stage oracle S fuel st) (by omega) k1 ?_ k2 k4 k3 ?_
      · rcases k5 with h | ⟨_, hz, hall⟩
        · exact Or.inl h
        · refine Or.inr ⟨hz, ?_⟩
          intro j hj
          have hSS : S + 1 - 1 = S := by omega
          rw [hSS]
          exact hall j hj
      · rcases k5 with h | ⟨_, hz, _⟩
        · intro _
          exact h
        · intro hpos
          omega

theorem pipeline_run_spec (oracle : Nat → PassEffect) (n fuel : Nat) :
    (∀ e ∈ (pipeline_run oracle n fuel).log, GoodEvent e)
    ∧ List.Pairwise (fun a b => a.moduleIdx ≠ b.moduleIdx)
        (errEvents (pipeline_run oracle n fuel).log)
    ∧ (0 < (pipeline_run oracle n fuel).errors →
        (pipeline_run oracle n fuel).halted = true) := by
  have h := run_stages_spec oracle fuel analysisLast 1 (initPState n)
    (Nat.le_refl 1)
    (fun j _ => rfl)
    (Or.inr ⟨rfl, fun j _ => rfl⟩)
    (fun e he => absurd he (List.not_mem_nil e))
    (fun e he => absurd he (List.not_mem_nil e))
    List.Pairwise.nil
    (fun h => absurd h (Nat.lt_irrefl 0))
  exact h

/-- C1: the analysis pipeline advances modules in lockstep at stage
granularity: in every run of the `compiler_compile` stage loop (any number
of initial modules, any pass behaviour — including passes that append new
modules to `module_list` — and any run length), whenever a module begins a
stage-`s` pass, every module then in `module_list` is at stage at least
`s - 1`. -/
theorem analysis_lockstep (oracle : Nat → PassEffect) (n fuel : Nat) :
    ∀ e ∈ (pipeline_run oracle n fuel).log, ∀ j, j < e.stagesAtBegin.length →
      e.stage - 1 ≤ e.stagesAtBegin.getD j 0 := by
  intro e he j hj
  have hx : e.stagesAtBegin.getD j 0 ∈ e.stagesAtBegin := by
    rw [List.getD_eq_getElem _ _ hj]
    exact List.getElem_mem _
  exact (pipeline_run_spec oracle n fuel).1 e he _ hx

/-- Witness for C1: in a two-pass-effect-free run with one module, the
module begins stage 1 with the snapshot `[1]`, which satisfies the
lockstep bound. -/
theorem analysis_lockstep_witness :
    (⟨0, 1, [1], 0⟩ : PassEvent) ∈ (pipeline_run (fun _ => ⟨0, 0⟩) 1 5).log
    ∧ (1 : Nat) - 1 ≤ (⟨0, 1, [1], 0⟩ : PassEvent).stagesAtBegin.getD 0 0 :=
  ⟨by decide,
   analysis_lockstep (fun _ => ⟨0, 0⟩) 1 5 ⟨0, 1, [1], 0⟩ (by decide) 0 (by decide)⟩

theorem getD_log_mem (l : List PassEvent) (n : Nat) (h : n < l.length) :
    l.getD n defaultEvent ∈ l := by
  rw [List.getD_eq_getElem _ _ h]
  exact List.getElem_mem _

theorem pairwise_getD_begin (log : List PassEvent) (h : MonoErrors log) (a b : Nat)
    (ha : a < log.length) (hb : b < log.length) (hab : a < b) :
    (log.getD a defaultEvent).errorsAtBegin ≤ (log.getD b defaultEvent).errorsAtBegin := by
  rw [List.getD_eq_getElem _ _ ha, List.getD_eq_getElem _ _ hb]
  exact List.pairwise_iff_getElem.mp h a b ha hb hab

theorem err_invs_snoc (S i : Nat) (errors errors2 : Nat) (log : List PassEvent)
    (ev : PassEvent)
    (hBelow : ∀ e ∈ log, e.errorsAtBegin ≤ errors)
    (hMono : MonoErrors log)
    (hES : ErrStruct log)
    (hEA : ErrAnchor S i errors log)
    (hev_begin : ev.errorsAtBegin = errors)
    (hev_stage : ev.stage = S)
    (hev_idx : ev.moduleIdx = i) :
    MonoErrors (log ++ [ev]) ∧ ErrStruct (log ++ [ev])
    ∧ ErrAnchor S (i + 1) errors2 (log ++ [ev]) := by
  have hlen : (log ++ [ev]).length = log.length + 1 := by simp
  have hgetlt : ∀ n, n < log.length →
      (log ++ [ev]).getD n defaultEvent = log.getD n defaultEvent :=
    fun n h => List.getD_append _ _ _ _ h
  have hgetev : (log ++ [ev]).getD log.length defaultEvent = ev := getD_snoc _ _ _
  refine ⟨?_, ?_, ?_⟩
  · unfold MonoErrors at hMono ⊢
    rw [List.pairwise_append]
    refine ⟨hMono, List.pairwise_singleton _ _, ?_⟩
    intro a ha b hb
    rw [List.mem_singleton] at hb
    subst hb
    rw [hev_begin]
    exact hBelow a ha
  · intro p q hpq hq hzp hpend
    rw [hlen] at hq
    have hp : p < log.length := by omega
    rw [hgetlt p hp] at hzp
    rcases Nat.lt_or_ge q log.length with hql | hqe
    · have hp1 : p + 1 < log.length := by omega
      rw [hgetlt (p + 1) hp1] at hpend
      rw [hgetlt p hp, hgetlt q hql]
      exact hES p q hpq hql hzp hpend
    · have hqeq : q = log.length := by omega
      subst hqeq
      rw [hgetlt p hp, hgetev]
      have hlater : ∀ r, p < r → r < log.length →
          0 < (log.getD r defaultEvent).errorsAtBegin := by
        intro r hpr hr
        rcases Nat.lt_or_ge (p + 1) log.length with h1 | h1
        · rw [hgetlt (p + 1) h1] at hpend
          rcases Nat.eq_or_lt_of_le (Nat.succ_le_of_lt hpr) with he | hlt
          · rw [← he]
            exact hpend
          · have := pairwise_getD_begin log hMono (p + 1) r h1 hr hlt
            omega
        · omega
      have herrpos : 0 < errors := by
        rcases Nat.lt_or_ge (p + 1) log.length with h1 | h1
        · rw [hgetlt (p + 1) h1] at hpend
          have hmem := getD_log_mem log (p + 1) h1
          have := hBelow _ hmem
          omega
        · have hpe : p + 1 = log.length := by omega
          rw [hpe, hgetev, hev_begin] at hpend
          exact hpend
      obtain ⟨hsp, hip⟩ := hEA p hp hzp hlater herrpos
      refine ⟨?_, ?_, ?_⟩
      · rw [hev_idx]
        exact hip
      · rw [hev_stage, hsp]
      · rw [hev_begin]
        exact herrpos
  · intro p hp hzp hlater _
    rw [hlen] at hp
    rcases Nat.lt_or_ge p log.length with hpl | hpe
    · rw [hgetlt p hpl] at hzp ⊢
      have hevpend : 0 < ev.errorsAtBegin := by
        have h := hlater log.length (by omega) (by rw [hlen]; omega)
        rw [hgetev] at h
        exact h
      have herrpos : 0 < errors := by
        rw [hev_begin] at hevpend
        exact hevpend
      have hlater' : ∀ q, p < q → q < log.length →
          0 < (log.getD q defaultEvent).errorsAtBegin := by
        intro q hpq hql
        have h := hlater q hpq (by rw [hlen]; omega)
        rw [hgetlt q hql] at h
        exact h
      obtain ⟨hsp, hip⟩ := hEA p hpl hzp hlater' herrpos
      exact ⟨hsp, by omega⟩
    · have hpeq : p = log.length := by omega
      subst hpeq
      rw [hgetev] at hzp ⊢
      refine ⟨hev_stage, ?_⟩
      rw [hev_idx]
      omega

theorem analyze_loop_err_spec (oracle : Nat → PassEffect) (S : Nat) (hS : 1 ≤ S) :
    ∀ (fuel i : Nat) (st : PState),
      WFP st → WithinStage S st →
      (∀ e ∈ st.log, e.errorsAtBegin ≤ st.errors) →
      MonoErrors st.log → ErrStruct st.log → ErrAnchor S i st.errors st.log →
      MonoErrors (analyze_to_stage_loop oracle S fuel i st).log
      ∧ ErrStruct (analyze_to_stage_loop oracle S fuel i st).log := by
  intro fuel
  induction fuel with
  | zero =>
    intro i st _ _ _ hM hES _
    exact ⟨hM, hES⟩
  | succ fuel ih =>
    intro i st hwf hwithin hbelow hM hES hEA
    simp only [analyze_to_stage_loop]
    split
    · next hi =>
      by_cases hlt : st.stageOf i < S
      · have hst : st.stageOf i = S - 1 := by
          rcases hwithin i hi with h | h
          · omega
          · exact h
        rw [sema_step oracle S S st hS hlt hst]
        set st1 : PState := { st with stageOf := setStage st.stageOf i S } with hst1
        set ev : PassEvent := ⟨i, S, snapshotStages st1, st.errors⟩ with hev
        have hlog2 : (runPass oracle i st1).log = st.log ++ [ev] := by
          rw [runPass_log]
          simp [hst1, hev, setStage]
        have herrle : st.errors ≤ (runPass oracle i st1).errors := runPass_errors_le oracle i st1
        have hcntle : st.count ≤ (runPass oracle i st1).count := runPass_count_le oracle i st1
        have hstage2 : (runPass oracle i st1).stageOf = setStage st.stageOf i S := rfl
        have hwf2 : WFP (runPass oracle i st1) := by
          intro j hj
          rw [hstage2]
          have hjc : st.count ≤ j := le_trans hcntle hj
          have hne : ¬ j = i := by omega
          simp only [setStage, if_neg hne]
          exact hwf j hjc
        have hwithin2 : WithinStage S (runPass oracle i st1) := by
          intro j hj
          rw [hstage2]
          by_cases hji : j = i
          · subst hji
            simp [setStage]
          · simp only [setStage, if_neg hji]
            rcases Nat.lt_or_ge j st.count with hc | hc
            · exact hwithin j hc
            · rw [runPass_count_eq] at hj
              have hcc : st1.count = st.count := rfl
              rw [hcc] at hj
              have hS1 : st1.stageOf i = 1 := by
                by_contra hn1
                rw [if_neg hn1] at hj
                omega
              have hSone : S = 1 := by
                have hsi : st1.stageOf i = S := by simp [hst1, setStage]
                omega
              right
              rw [hwf j hc, hSone]
        have hbelow2 : ∀ e ∈ (runPass oracle i st1).log,
            e.errorsAtBegin ≤ (runPass oracle i st1).errors := by
          intro e he
          rw [hlog2] at he
          rcases List.mem_append.mp he with h | h
          · exact le_trans (hbelow e h) herrle
          · rw [List.mem_singleton] at h
            subst h
            exact herrle
        obtain ⟨hM2, hES2, hEA2⟩ := err_invs_snoc S i st.errors
          (runPass oracle i st1).errors st.log ev hbelow hM hES hEA rfl rfl rfl
        have hM2' : MonoErrors (runPass oracle i st1).log := by
          rw [hlog2]
          exact hM2
        have hES2' : ErrStruct (runPass oracle i st1).log := by
          rw [hlog2]
          exact hES2
        have hEA2' : ErrAnchor S (i + 1) (runPass oracle i st1).errors
            (runPass oracle i st1).log := by
          rw [hlog2]
          exact hEA2
        exact ih (i + 1) (runPass oracle i st1) hwf2 hwithin2 hbelow2 hM2' hES2' hEA2'
      · rw [sema_done oracle S st hlt]
        apply ih (i + 1) st hwf hwithin hbelow hM hES
        intro p hp hz hl hpos
        obtain ⟨h1, h2⟩ := hEA p hp hz hl hpos
        exact ⟨h1, by omega⟩
    · next hi =>
      exact ⟨hM, hES⟩

theorem analyze_stage_err_spec (oracle : Nat → PassEffect) (S : Nat) (hS : 1 ≤ S)
    (fuel : Nat) (st : PState)
    (hwf : WFP st) (hwithin : WithinStage S st) (herrz : st.errors = 0)
    (hbelow : ∀ e ∈ st.log, e.errorsAtBegin ≤ st.errors)
    (hM : MonoErrors st.log) (hES : ErrStruct st.log) :
    MonoErrors (analyze_to_stage oracle S fuel st).log
    ∧ ErrStruct (analyze_to_stage oracle S fuel st).log := by
  have hEA : ErrAnchor S 0 st.errors st.log := by
    intro p _ _ _ hpos
    rw [herrz] at hpos
    exact absurd hpos (by omega)
  obtain ⟨h1, h2⟩ := analyze_loop_err_spec oracle S hS fuel 0 st hwf hwithin hbelow hM hES hEA
  unfold analyze_to_stage
  rw [halt_log]
  exact ⟨h1, h2⟩

theorem run_stages_err_spec (oracle : Nat → PassEffect) (fuel : Nat) :
    ∀ (n S : Nat) (st : PState), 1 ≤ S → WFP st →
      (st.halted = true ∨ (st.errors = 0 ∧ ∀ j, j < st.count → st.stageOf j = S - 1)) →
      (∀ e ∈ st.log, GoodEvent e) →
      (∀ e ∈ st.log, e.errorsAtBegin ≤ st.errors) →
      List.Pairwise (fun a b => a.moduleIdx ≠ b.moduleIdx) (errEvents st.log) →
      MonoErrors st.log → ErrStruct st.log →
      MonoErrors (run_stages_from oracle fuel S n st).log
      ∧ ErrStruct (run_stages_from oracle fuel S n st).log := by
  intro n
  induction n with
  | zero =>
    intro S st _ _ _ _ _ _ hM hES
    exact ⟨hM, hES⟩
  | succ n ih =>
    intro S st hS hwf hd hgood hbelow hpw hM hES
    simp only [run_stages_from]
    split
    · next => exact ⟨hM, hES⟩
    · next hh =>
      have hd2 : st.errors = 0 ∧ ∀ j, j < st.count → st.stageOf j = S - 1 := by
        rcases hd with h | h
        · exact absurd h hh
        · exact h
      have hwithin : WithinStage S st := fun j hj => Or.inr (hd2.2 j hj)
      obtain ⟨k1, k2, k3, k4, k5⟩ :=
        analyze_stage_spec oracle S hS fuel st hwf hwithin hd2.1 hbelow hgood hpw
      obtain ⟨m1, m2⟩ :=
        analyze_stage_err_spec oracle S hS fuel st hwf hwithin hd2.1 hbelow hM hES
      apply ih (S + 1) (analyze_to_stage oracle S fuel st) (by omega) k1 ?_ k2 k4 k3 m1 m2
      rcases k5 with h | ⟨_, hz, hall⟩
      · exact Or.inl h
      · refine Or.inr ⟨hz, ?_⟩
        intro j hj
        have hSS : S + 1 - 1 = S := by omega
        rw [hSS]
        exact hall j hj

theorem pipeline_err_struct (oracle : Nat → PassEffect) (n fuel : Nat) :
    MonoErrors (pipeline_run oracle n fuel).log
    ∧ ErrStruct (pipeline_run oracle n fuel).log := by
  exact run_stages_err_spec oracle fuel analysisLast 1 (initPState n)
    (Nat.le_refl 1)
    (fun j _ => rfl)
    (Or.inr ⟨rfl, fun j _ => rfl⟩)
    (fun e he => absurd he (List.not_mem_nil e))
    (fun e he => absurd he (List.not_mem_nil e))
    List.Pairwise.nil
    List.Pairwise.nil
    (fun p q _ hq _ _ => absurd hq (by simp [initPState]))

/-- C3 (amended): after a pass leaves `errors_found > 0`, the erroring
module runs no further pass and the pipeline stays inside the current
stage until the driver exits.  Formally, for every run: if the pass at log
position `p` began with `errors_found = 0` and the next pass began with
`errors_found > 0` (so `p` is the pass that recorded the first error),
then every later pass runs on a strictly greater module index — the
erroring module never runs again — at the same stage as the erroring pass
— no module enters the next stage — and began with `errors_found` still
positive; moreover no two error-pending passes share a module index (each
remaining module runs at most one more pass) and the driver has exited
non-zero (`halted`) whenever `errors_found` ends positive. -/
theorem error_halts_pipeline (oracle : Nat → PassEffect) (n fuel : Nat) :
    List.Pairwise (fun a b => a.moduleIdx ≠ b.moduleIdx)
      (errEvents (pipeline_run oracle n fuel).log)
    ∧ (0 < (pipeline_run oracle n fuel).errors →
        (pipeline_run oracle n fuel).halted = true)
    ∧ (∀ p q, p < q → q < (pipeline_run oracle n fuel).log.length →
        ((pipeline_run oracle n fuel).log.getD p defaultEvent).errorsAtBegin = 0 →
        0 < ((pipeline_run oracle n fuel).log.getD (p + 1) defaultEvent).errorsAtBegin →
        ((pipeline_run oracle n fuel).log.getD p defaultEvent).moduleIdx
          < ((pipeline_run oracle n fuel).log.getD q defaultEvent).moduleIdx
        ∧ ((pipeline_run oracle n fuel).log.getD q defaultEvent).stage
          = ((pipeline_run oracle n fuel).log.getD p defaultEvent).stage
        ∧ 0 < ((pipeline_run oracle n fuel).log.getD q defaultEvent).errorsAtBegin) :=
  ⟨(pipeline_run_spec oracle n fuel).2.1,
   (pipeline_run_spec oracle n fuel).2.2,
   (pipeline_err_struct oracle n fuel).2⟩

/-- Witness for C3 (amended): a run of two modules whose first pass
(module 0, stage 1) records an error.  The run ends with `errors_found = 1`
and the driver exited; the single pass after the erroring one is on the
strictly greater module index 1, at the same stage 1, and began with the
error pending. -/
theorem error_halts_pipeline_witness :
    0 < (pipeline_run (fun t => if t = 0 then (⟨0, 1⟩ : PassEffect) else ⟨0, 0⟩) 2 5).errors
    ∧ (pipeline_run (fun t => if t = 0 then (⟨0, 1⟩ : PassEffect) else ⟨0, 0⟩) 2 5).halted
        = true
    ∧ (((pipeline_run (fun t => if t = 0 then (⟨0, 1⟩ : PassEffect) else ⟨0, 0⟩) 2 5).log.getD
          0 defaultEvent).moduleIdx
        < ((pipeline_run (fun t => if t = 0 then (⟨0, 1⟩ : PassEffect) else ⟨0, 0⟩) 2 5).log.getD
          1 defaultEvent).moduleIdx)
    ∧ ((pipeline_run (fun t => if t = 0 then (⟨0, 1⟩ : PassEffect) else ⟨0, 0⟩) 2 5).log.getD
          1 defaultEvent).stage
        = ((pipeline_run (fun t => if t = 0 then (⟨0, 1⟩ : PassEffect) else ⟨0, 0⟩) 2 5).log.getD
          0 defaultEvent).stage
    ∧ 0 < ((pipeline_run (fun t => if t = 0 then (⟨0, 1⟩ : PassEffect) else ⟨0, 0⟩) 2 5).log.getD
          1 defaultEvent).errorsAtBegin :=
  ⟨by decide,
   (error_halts_pipeline (fun t => if t = 0 then (⟨0, 1⟩ : PassEffect) else ⟨0, 0⟩) 2 5).2.1
     (by decide),
   ((error_halts_pipeline (fun t => if t = 0 then (⟨0, 1⟩ : PassEffect) else ⟨0, 0⟩) 2 5).2.2
     0 1 (by decide) (by decide) (by decide) (by decide)).1,
   ((error_halts_pipeline (fun t => if t = 0 then (⟨0, 1⟩ : PassEffect) else ⟨0, 0⟩) 2 5).2.2
     0 1 (by decide) (by decide) (by decide) (by decide)).2.1,
   ((error_halts_pipeline (fun t => if t = 0 then (⟨0, 1⟩ : PassEffect) else ⟨0, 0⟩) 2 5).2.2
     0 1 (by decide) (by decide) (by decide) (by decide)).2.2⟩

/-- Counterexample for C3 as stated: with two modules whose first pass
(module 0, stage 1) records an error, the claim "no further analysis pass
runs on any module" fails — the log contains a pass (module 1's stage-1
pass) that began while `errors_found` was already nonzero, because
`analyze_to_stage` finishes its loop over the remaining modules and only
`halt_on_error` at the stage boundary exits. -/
theorem error_does_not_stop_passes :
    ¬ (∀ e ∈ (pipeline_run (fun t => if t = 0 then (⟨0, 1⟩ : PassEffect) else ⟨0, 0⟩) 2 5).log,
        e.errorsAtBegin = 0) := by
  decide
